import Mathlib

/-!
# Verification of the pickdiff diff-construction and rendering pipeline

Shallow embedding of the core functions of the pickdiff repository
(`src/diff.ts` as bundled with the CLI, `src/server.ts`, `frontend/script.ts`):
the unified-diff line-number parser, the header stripper, the contextLines
validators, the per-request diff generation loop, and the two Markdown
renderers.  JavaScript strings are modelled as Lean `String`s,
`String.prototype.split` as an explicit character-level splitter, JavaScript
numbers as `ℚ` (exact rationals; the claims never involve values where IEEE
rounding would be observable), JavaScript objects used as string-keyed records
as insertion-ordered association lists, and the git subprocess as an oracle
structure whose fallible calls return `Except`.
-/

namespace Pickdiff

/-- One rendered row of a file's diff (interface `DiffLine` in `diff.ts` /
`server.ts`): the line text including its marker, and optional 1-based
old/new line numbers. -/
structure DiffLine where
  content : String
  oldLineNumber : Option Nat
  newLineNumber : Option Nat
deriving DecidableEq, Repr

/-- Character-level splitter on a separator character: the model of
JavaScript `string.split(sep)` for a one-character separator.  Like the
JavaScript original it returns `[""]` on the empty string and keeps empty
segments. -/
def splitChars (sep : Char) : List Char → List (List Char)
  | [] => [[]]
  | c :: rest =>
    match splitChars sep rest with
    | [] => [[]]
    | l :: ls => if c = sep then [] :: l :: ls else (c :: l) :: ls

/-- `diff.split("\n")` from the source, as a `String`-level function. -/
def splitLines (s : String) : List String :=
  (splitChars '\n' s.data).map String.mk

/-- Structural character-level prefix test. -/
def hasLead : List Char → List Char → Bool
  | [], _ => true
  | _ :: _, [] => false
  | p :: ps, c :: cs => p == c && hasLead ps cs

/-- The model of JavaScript `string.startsWith(pre)`. -/
def jsStartsWith (s pre : String) : Bool :=
  hasLead pre.data s.data

/-- Character-level joining with a separator: the model of
JavaScript `array.join(sep)` for a one-character separator. -/
def joinLinesChars : List (List Char) → List Char
  | [] => []
  | [l] => l
  | l :: l₂ :: ls => l ++ '\n' :: joinLinesChars (l₂ :: ls)

/-- `lines.join("\n")` from the source, as a `String`-level function. -/
def joinLines (lines : List String) : String :=
  String.mk (joinLinesChars (lines.map String.data))

/-! ## The hunk-header pattern

`parseDiffWithLineNumbers` runs the JavaScript regular expression
`/@@ -(\d+)(?:,\d+)? \+(\d+)(?:,\d+)? @@/` over each line that starts with
`"@@ "` and reads the two captured digit groups.  We implement that match
directly: maximal digit runs for `\d+`, the two optional `(?:,\d+)?` groups
tried greedily with fallback, and the search tried at each start position
from the left (JavaScript `String.prototype.match` returns the leftmost
match). -/

/-- Digit-string value, as `Number.parseInt` on a `\d+` capture. -/
def digitsToNat (ds : List Char) : Nat :=
  ds.foldl (fun acc c => acc * 10 + (c.toNat - '0'.toNat)) 0

/-- Consume a maximal nonempty digit run; `none` when the input does not
start with a digit. -/
def takeDigits (cs : List Char) : Option (Nat × List Char) :=
  let ds := cs.takeWhile Char.isDigit
  if ds.isEmpty then none else some (digitsToNat ds, cs.drop ds.length)

/-- Consume the optional `(?:,\d+)?` group followed by the required literal
`next`, backtracking over the optional group as the regex engine does:
first try with the group, then without. -/
def afterOptGroup (next : List Char) (cs : List Char) : Option (List Char) :=
  let without : Option (List Char) :=
    if hasLead next cs then some (cs.drop next.length) else none
  match cs with
  | ',' :: cs₂ =>
    match takeDigits cs₂ with
    | some (_, cs₃) =>
      if hasLead next cs₃ then some (cs₃.drop next.length) else without
    | none => without
  | _ => without

/-- Try the whole pattern `@@ -(\d+)(?:,\d+)? \+(\d+)(?:,\d+)? @@` anchored
at the start of `cs`; on success return the two captured numbers. -/
def matchHunkAt (cs : List Char) : Option (Nat × Nat) :=
  match cs with
  | '@' :: '@' :: ' ' :: '-' :: cs₁ =>
    match takeDigits cs₁ with
    | some (o, cs₂) =>
      match afterOptGroup [' ', '+'] cs₂ with
      | some cs₃ =>
        match takeDigits cs₃ with
        | some (n, cs₄) =>
          match afterOptGroup [' ', '@', '@'] cs₄ with
          | some _ => some (o, n)
          | none => none
        | none => none
      | none => none
    | none => none
  | _ => none

/-- Leftmost search of the hunk-header pattern in a line, as the unanchored
JavaScript regex match does. -/
def searchHunk : List Char → Option (Nat × Nat)
  | [] => none
  | c :: rest =>
    match matchHunkAt (c :: rest) with
    | some r => some r
    | none => searchHunk rest

/-! ## The parser `parseDiffWithLineNumbers` -/

/-- The mutable state of the parsing loop in `parseDiffWithLineNumbers`:
the two running counters, the in-content flag, and the accumulated output. -/
structure ParseState where
  oldLineNumber : Nat
  newLineNumber : Nat
  inContent : Bool
  diffLines : List DiffLine
deriving DecidableEq, Repr

/-- One iteration of the `for (const line of lines)` loop of
`parseDiffWithLineNumbers` (`diff.ts` / `server.ts`): hunk headers set the
counters (malformed ones only log a warning and leave them), lines before
the first hunk and empty lines are skipped, and content lines are
classified by their leading character. -/
def parseStep (st : ParseState) (line : String) : ParseState :=
  if jsStartsWith line "@@ " then
    match searchHunk line.data with
    | some (o, n) =>
      { st with inContent := true, oldLineNumber := o, newLineNumber := n }
    | none => { st with inContent := true }
  else if !st.inContent then st
  else if line = "" then st
  else if jsStartsWith line "+" then
    { st with
        diffLines := st.diffLines ++ [⟨line, none, some st.newLineNumber⟩],
        newLineNumber := st.newLineNumber + 1 }
  else if jsStartsWith line "-" then
    { st with
        diffLines := st.diffLines ++ [⟨line, some st.oldLineNumber, none⟩],
        oldLineNumber := st.oldLineNumber + 1 }
  else
    { st with
        diffLines :=
          st.diffLines ++ [⟨line, some st.oldLineNumber, some st.newLineNumber⟩],
        oldLineNumber := st.oldLineNumber + 1,
        newLineNumber := st.newLineNumber + 1 }

/-- `parseDiffWithLineNumbers` from `diff.ts` / `server.ts`: split the raw
diff on newlines and run the loop from counters `0`, not-in-content, empty
output. -/
def parseDiffWithLineNumbers (diff : String) : List DiffLine :=
  ((splitLines diff).foldl parseStep ⟨0, 0, false, []⟩).diffLines

/-- A hunk-header line whose pattern match succeeds with both starting
offsets positive.  Real git hunk headers for non-empty ranges have this
shape; `@@ -0,0 ... @@` headers (new-file diffs) and unparseable headers do
not. -/
def goodHunkHeaderB (line : String) : Bool :=
  match searchHunk line.data with
  | some (o, n) => o != 0 && n != 0
  | none => false

/-! ## `stripDiffHeaders` -/

/-- The loop of `stripDiffHeaders`: hunk-header lines flip the in-content
flag and are dropped, anything before the first hunk header is dropped, and
everything after is kept. -/
def stripLinesGo : Bool → List String → List String
  | _, [] => []
  | inContent, line :: rest =>
    if jsStartsWith line "@@ " then stripLinesGo true rest
    else if !inContent then stripLinesGo inContent rest
    else line :: stripLinesGo inContent rest

/-- `stripDiffHeaders` from `diff.ts` / `server.ts`. -/
def stripDiffHeaders (diff : String) : String :=
  joinLines (stripLinesGo false (splitLines diff))

/-! ## `contextLines` validation

`validateContextLines` in `diff.ts` receives a TypeScript `unknown`;
the `/api/diff` handler in `server.ts` receives an arbitrary JSON value.
We model such a value as a `JSVal`, with JavaScript numbers as exact
rationals (`Number.isInteger q` becomes `q.den = 1`). -/

/-- A JavaScript value as it can arrive in `contextLines`. -/
inductive JSVal where
  | num : ℚ → JSVal
  | str : String → JSVal
  | boolean : Bool → JSVal
  | nullVal : JSVal
deriving DecidableEq, Repr

/-- `validateContextLines` from `diff.ts`: keep a number that is an
integer, positive and at most 999999; anything else becomes 3. -/
def validateContextLines : JSVal → ℚ
  | .num q => if q.den = 1 ∧ 0 < q ∧ q ≤ 999999 then q else 3
  | _ => 3

/-- The inline check in the `/api/diff` handler of `server.ts`
(`typeof contextLines === "number" && contextLines > 0 ? contextLines : 3`):
it only requires a positive number. -/
def serverValidContextLines : JSVal → ℚ
  | .num q => if 0 < q then q else 3
  | _ => 3

/-! ## Diff acquisition (`generateDiffs` in `diff.ts`, and the loop of the
`/api/diff` handler in `server.ts`)

The git subprocess is modelled as an oracle already specialized to the two
requested commits.  The two `cat-file -e` existence probes are caught
unconditionally by the source, so they appear as `Bool`; `git diff` and
`git show` failures propagate, so they return `Except`. -/

/-- The external git capability used by one comparison request. -/
structure GitOracle where
  /-- Does `cat-file -e endCommit:file` succeed? -/
  existsAtEnd : String → Bool
  /-- `git diff startCommit..endCommit -U<ctx> -- file`; the rational is the
  validated context-line count interpolated into `-U${...}`. -/
  diff : ℚ → String → Except String String
  /-- Does `cat-file -e startCommit:file` succeed? -/
  existsAtStart : String → Bool
  /-- `git show endCommit:file` (full file content). -/
  showFile : String → Except String String

/-- The synthesized all-additions lines for a new file, from index `i`:
`fileContent.split("\n").map((line, index) => ({content: "+"+line,
newLineNumber: index+1}))`. -/
def newFileDiffLinesGo : Nat → List String → List DiffLine
  | _, [] => []
  | i, line :: rest => ⟨"+" ++ line, none, some (i + 1)⟩ :: newFileDiffLinesGo (i + 1) rest

/-- All-additions diff synthesized from the full content of a new file. -/
def newFileDiffLines (content : String) : List DiffLine :=
  newFileDiffLinesGo 0 (splitLines content)

/-- The body of the per-file loop after the end-commit existence check has
succeeded: run `git diff`; on empty output either emit the `NO_CHANGES`
sentinel (file also at start commit) or synthesize an all-additions diff
from `git show`; on non-empty output parse it. -/
def processFileDiff (g : GitOracle) (validCtx : ℚ) (file : String) :
    Except String (List DiffLine) :=
  match g.diff validCtx file with
  | .error e => .error e
  | .ok rawDiff =>
    if rawDiff = "" then
      if g.existsAtStart file then .ok [⟨"NO_CHANGES", none, none⟩]
      else
        match g.showFile file with
        | .error e => .error e
        | .ok content => .ok (newFileDiffLines content)
    else .ok (parseDiffWithLineNumbers rawDiff)

/-- Assignment `obj[key] = value` on a JavaScript object with string keys,
modelled on an insertion-ordered association list: update the existing
binding in place, else append. -/
def recordSet {α : Type} : List (String × α) → String → α → List (String × α)
  | [], k, v => [(k, v)]
  | (k', v') :: rest, k, v =>
    if k' == k then (k', v) :: rest else (k', v') :: recordSet rest k v

/-- Key lookup on the association-list model of a JavaScript object. -/
def lookupRecord {α : Type} : List (String × α) → String → Option α
  | [], _ => none
  | (k', v) :: rest, k => if k' == k then some v else lookupRecord rest k

/-- The `for (const file of files)` loop shared verbatim by
`generateDiffs` (`diff.ts`) and the `/api/diff` handler (`server.ts`):
files failing the end-commit probe are appended to `excludedFiles` and
skipped; for the rest the per-file diff is computed and stored, any error
aborting the whole request. -/
def generateDiffsGo (g : GitOracle) (validCtx : ℚ) :
    List String → List (String × List DiffLine) → List String →
    Except String (List (String × List DiffLine) × List String)
  | [], diffs, excludedFiles => .ok (diffs, excludedFiles)
  | file :: rest, diffs, excludedFiles =>
    if g.existsAtEnd file then
      match processFileDiff g validCtx file with
      | .error e => .error e
      | .ok diffLines =>
        generateDiffsGo g validCtx rest (recordSet diffs file diffLines) excludedFiles
    else
      generateDiffsGo g validCtx rest diffs (excludedFiles ++ [file])

/-- `generateDiffs` from `diff.ts`: validate `contextLines` with
`validateContextLines`, then run the per-file loop on empty accumulators. -/
def generateDiffs (g : GitOracle) (files : List String) (contextLines : JSVal) :
    Except String (List (String × List DiffLine) × List String) :=
  generateDiffsGo g (validateContextLines contextLines) files [] []

/-- The same loop as run by the `/api/diff` handler in `server.ts`, which
uses its weaker inline `contextLines` check. -/
def serverGenerateDiffs (g : GitOracle) (files : List String)
    (contextLines : JSVal) :
    Except String (List (String × List DiffLine) × List String) :=
  generateDiffsGo g (serverValidContextLines contextLines) files [] []

/-! ## Markdown renderers

`generateMarkdown` exists twice in the source: once in `diff.ts` (used by
the CLI), always fencing with ` ```diff `, and once in `frontend/script.ts`,
fencing with the language looked up from the file extension.  Both build an
array of lines and join it with `"\n"`; we expose the line lists. -/

/-- The `diffLines.length === 1 && diffLines[0].content === "NO_CHANGES"`
test used by both renderers. -/
def isNoChanges (diffLines : List DiffLine) : Bool :=
  match diffLines with
  | [dl] => dl.content == "NO_CHANGES"
  | _ => false

/-- Metadata for markdown export (interface `MarkdownExportData` in
`diff.ts`), with the `diffs` record as an insertion-ordered association
list. -/
structure MarkdownExportData where
  repoPath : String
  startCommit : String
  endCommit : String
  contextLines : ℚ
  diffs : List (String × List DiffLine)
  excludedFiles : List String

/-- The lines pushed for one file by the loop of `generateMarkdown` in
`diff.ts`: heading, then either the *No changes* marker or a ` ```diff `
fenced block with every line's content. -/
def mdFileChunk (file : String) (diffLines : List DiffLine) : List String :=
  ["### `" ++ file ++ "`", ""] ++
    (if isNoChanges diffLines then ["*No changes*", ""]
     else ["```diff"] ++ diffLines.map (fun dl => dl.content) ++ ["```", ""])

/-- All lines pushed by `generateMarkdown` in `diff.ts`, in order. -/
def generateMarkdownLines (data : MarkdownExportData) : List String :=
  ["# Diff Summary", "",
   "## Metadata", "",
   "- **Repository:** `" ++ data.repoPath ++ "`",
   "- **Start Commit:** `" ++ data.startCommit ++ "`",
   "- **End Commit:** `" ++ data.endCommit ++ "`",
   "- **Context Lines:** " ++ toString data.contextLines,
   "- **Files Changed:** " ++ toString data.diffs.length,
   ""] ++
    (if data.excludedFiles.isEmpty then []
     else
      ["## Excluded Files", "",
       "The following files were excluded because they do not exist in the end commit:",
       ""] ++ data.excludedFiles.map (fun f => "- `" ++ f ++ "`") ++ [""]) ++
    ["## File Changes", ""] ++
    (data.diffs.map (fun p => mdFileChunk p.1 p.2)).flatten

/-- `generateMarkdown` from `diff.ts`: the pushed lines joined with
`"\n"`. -/
def generateMarkdown (data : MarkdownExportData) : String :=
  joinLines (generateMarkdownLines data)

/-- The extension-to-language table of `getMarkdownLanguage` in
`frontend/script.ts`. -/
def languageMapList : List (String × String) :=
  [("js", "javascript"), ("jsx", "javascript"), ("ts", "typescript"),
   ("tsx", "typescript"), ("py", "python"), ("rb", "ruby"), ("java", "java"),
   ("c", "c"), ("cpp", "cpp"), ("cc", "cpp"), ("cxx", "cpp"), ("h", "c"),
   ("hpp", "cpp"), ("cs", "csharp"), ("go", "go"), ("rs", "rust"),
   ("php", "php"), ("swift", "swift"), ("kt", "kotlin"), ("scala", "scala"),
   ("html", "html"), ("htm", "html"), ("xml", "xml"), ("css", "css"),
   ("scss", "scss"), ("sass", "sass"), ("less", "less"), ("json", "json"),
   ("yaml", "yaml"), ("yml", "yaml"), ("md", "markdown"), ("sh", "bash"),
   ("bash", "bash"), ("zsh", "bash"), ("sql", "sql"), ("r", "r"),
   ("m", "objectivec"), ("mm", "objectivec")]

/-- Property-style lookup `languageMap[extension]` on the table. -/
def languageMap (extension : String) : Option String :=
  (languageMapList.find? (fun p => p.1 == extension)).map (fun p => p.2)

/-- The model of JavaScript `string.toLowerCase()` (ASCII as produced by
`Char.toLower`; extensions in the table are ASCII). -/
def strToLower (s : String) : String :=
  String.mk (s.data.map Char.toLower)

/-- `getMarkdownLanguage` from `frontend/script.ts`:
`filename.split(".").pop()?.toLowerCase()`, then
`extension ? languageMap[extension] || "diff" : "diff"` (the table's values
are never empty, so `||` only catches a missing key). -/
def getMarkdownLanguage (filename : String) : String :=
  let extension :=
    strToLower ((((splitChars '.' filename.data).map String.mk).getLast?).getD "")
  if extension = "" then "diff"
  else
    match languageMap extension with
    | some lang => lang
    | none => "diff"

/-- The lines pushed for one file by the loop of `generateMarkdown` in
`frontend/script.ts`: heading without backticks, then either the marker or
a fenced block whose fence language comes from `getMarkdownLanguage`. -/
def frontendMdFileChunk (file : String) (diffLines : List DiffLine) : List String :=
  ["### " ++ file, ""] ++
    (if isNoChanges diffLines then ["*No changes*", ""]
     else
      ["```" ++ getMarkdownLanguage file] ++
        diffLines.map (fun dl => dl.content) ++ ["```", ""])

/-- All lines pushed by `generateMarkdown` in `frontend/script.ts`
(`repoPath` is a surrounding mutable of the script, passed explicitly
here; the `for...in` guard `Object.keys(...).includes(file)` never skips a
key and is dropped). -/
def frontendGenerateMarkdownLines (repoPath : String) (data : MarkdownExportData) :
    List String :=
  ["# Diff Summary", "",
   "## Metadata", "",
   "- **Repository:** " ++ repoPath,
   "- **Start Commit:** `" ++ data.startCommit ++ "`",
   "- **End Commit:** `" ++ data.endCommit ++ "`",
   "- **Context Lines:** " ++ toString data.contextLines,
   "- **Files Changed:** " ++ toString data.diffs.length,
   ""] ++
    (if data.excludedFiles.isEmpty then []
     else
      ["## Excluded Files", "",
       "The following files were excluded because they do not exist in the end commit:",
       ""] ++ data.excludedFiles.map (fun f => "- `" ++ f ++ "`") ++ [""]) ++
    ["## File Changes", ""] ++
    (data.diffs.map (fun p => frontendMdFileChunk p.1 p.2)).flatten

/-- The frontend `generateMarkdown`: its pushed lines joined with `"\n"`. -/
def frontendGenerateMarkdown (repoPath : String) (data : MarkdownExportData) :
    String :=
  joinLines (frontendGenerateMarkdownLines repoPath data)

/-- `ys` occurs as a contiguous run inside `xs`. -/
def containsBlock (xs ys : List String) : Prop :=
  ∃ p q, xs = p ++ ys ++ q

end Pickdiff

namespace Pickdiff

/-! ## Parser step lemmas -/

lemma parseStep_hunk_some {line : String} (st : ParseState) {o n : Nat}
    (hh : jsStartsWith line "@@ " = true)
    (hs : searchHunk line.data = some (o, n)) :
    parseStep st line =
      { st with inContent := true, oldLineNumber := o, newLineNumber := n } := by
  simp [parseStep, hh, hs]

lemma parseStep_hunk_none {line : String} (st : ParseState)
    (hh : jsStartsWith line "@@ " = true)
    (hs : searchHunk line.data = none) :
    parseStep st line = { st with inContent := true } := by
  simp [parseStep, hh, hs]

lemma parseStep_skip {line : String} (st : ParseState)
    (hh : jsStartsWith line "@@ " = false)
    (hic : st.inContent = false) :
    parseStep st line = st := by
  simp [parseStep, hh, hic]

lemma parseStep_empty (st : ParseState) : parseStep st "" = st := by
  have hh : jsStartsWith "" "@@ " = false := rfl
  cases hic : st.inContent with
  | false => exact parseStep_skip st hh hic
  | true => simp [parseStep, hh, hic]

lemma parseStep_add {line : String} (st : ParseState)
    (hh : jsStartsWith line "@@ " = false)
    (hic : st.inContent = true) (hne : line ≠ "")
    (hp : jsStartsWith line "+" = true) :
    parseStep st line =
      { st with
          diffLines := st.diffLines ++ [⟨line, none, some st.newLineNumber⟩],
          newLineNumber := st.newLineNumber + 1 } := by
  simp [parseStep, hh, hic, hne, hp]

lemma parseStep_del {line : String} (st : ParseState)
    (hh : jsStartsWith line "@@ " = false)
    (hic : st.inContent = true) (hne : line ≠ "")
    (hp : jsStartsWith line "+" = false)
    (hm : jsStartsWith line "-" = true) :
    parseStep st line =
      { st with
          diffLines := st.diffLines ++ [⟨line, some st.oldLineNumber, none⟩],
          oldLineNumber := st.oldLineNumber + 1 } := by
  simp [parseStep, hh, hic, hne, hp, hm]

lemma parseStep_ctx {line : String} (st : ParseState)
    (hh : jsStartsWith line "@@ " = false)
    (hic : st.inContent = true) (hne : line ≠ "")
    (hp : jsStartsWith line "+" = false)
    (hm : jsStartsWith line "-" = false) :
    parseStep st line =
      { st with
          diffLines :=
            st.diffLines ++ [⟨line, some st.oldLineNumber, some st.newLineNumber⟩],
          oldLineNumber := st.oldLineNumber + 1,
          newLineNumber := st.newLineNumber + 1 } := by
  simp [parseStep, hh, hic, hne, hp, hm]

/-- Invariant preservation along the parsing fold. -/
lemma parse_foldl_inv (P : ParseState → Prop) :
    ∀ (lines : List String) (st : ParseState),
      P st → (∀ st' line, line ∈ lines → P st' → P (parseStep st' line)) →
      P (lines.foldl parseStep st)
  | [], _, hP, _ => hP
  | line :: rest, st, hP, hstep =>
    parse_foldl_inv P rest (parseStep st line)
      (hstep st line (List.mem_cons_self line rest) hP)
      (fun st' l hl hP' => hstep st' l (List.mem_cons_of_mem line hl) hP')

end Pickdiff

namespace Pickdiff

/-- C1: inside hunk content, the parser classifies each non-empty,
non-hunk-header line by its leading character — `+` emits a `DiffLine`
carrying only `newLineNumber` (then incremented), `-` one carrying only
`oldLineNumber` (then incremented), anything else a context line carrying
both (both incremented); and the raw diff
`"@@ -1,2 +1,2 @@\n-old line\n+new line"` parses to exactly
`[{content := "-old line", oldLineNumber := 1},
  {content := "+new line", newLineNumber := 1}]`. -/
theorem parse_classifies (st : ParseState) (line : String)
    (hic : st.inContent = true)
    (hh : jsStartsWith line "@@ " = false)
    (hne : line ≠ "") :
    (jsStartsWith line "+" = true →
      parseStep st line =
        { st with
            diffLines := st.diffLines ++ [⟨line, none, some st.newLineNumber⟩],
            newLineNumber := st.newLineNumber + 1 }) ∧
    (jsStartsWith line "+" = false → jsStartsWith line "-" = true →
      parseStep st line =
        { st with
            diffLines := st.diffLines ++ [⟨line, some st.oldLineNumber, none⟩],
            oldLineNumber := st.oldLineNumber + 1 }) ∧
    (jsStartsWith line "+" = false → jsStartsWith line "-" = false →
      parseStep st line =
        { st with
            diffLines :=
              st.diffLines ++
                [⟨line, some st.oldLineNumber, some st.newLineNumber⟩],
            oldLineNumber := st.oldLineNumber + 1,
            newLineNumber := st.newLineNumber + 1 }) ∧
    parseDiffWithLineNumbers "@@ -1,2 +1,2 @@\n-old line\n+new line" =
      [⟨"-old line", some 1, none⟩, ⟨"+new line", none, some 1⟩] :=
  ⟨fun hp => parseStep_add st hh hic hne hp,
   fun hp hm => parseStep_del st hh hic hne hp hm,
   fun hp hm => parseStep_ctx st hh hic hne hp hm,
   by decide⟩

/-- Witness for C1 at a concrete state and line. -/
theorem parse_classifies_witness :
    parseStep ⟨3, 7, true, []⟩ "+x" = ⟨3, 8, true, [⟨"+x", none, some 7⟩]⟩ ∧
    parseDiffWithLineNumbers "@@ -1,2 +1,2 @@\n-old line\n+new line" =
      [⟨"-old line", some 1, none⟩, ⟨"+new line", none, some 1⟩] := by
  have h := parse_classifies ⟨3, 7, true, []⟩ "+x" rfl (by decide) (by decide)
  exact ⟨(h.1 (by decide)).trans rfl, h.2.2.2⟩

/-- C6 (amended): the parser drops every empty line, not only those before
the first hunk header — inside hunk content an empty line likewise emits
nothing (and leaves the whole state unchanged), while every non-empty,
non-hunk-header line inside content emits exactly one `DiffLine` carrying
that line's text. -/
theorem parse_empty_lines (st : ParseState) (line : String) :
    parseStep st "" = st ∧
    (st.inContent = true → jsStartsWith line "@@ " = false → line ≠ "" →
      ∃ dl, (parseStep st line).diffLines = st.diffLines ++ [dl] ∧
        dl.content = line) ∧
    (st.inContent = false → jsStartsWith line "@@ " = false →
      parseStep st line = st) := by
  refine ⟨parseStep_empty st, ?_, fun hic hh => parseStep_skip st hh hic⟩
  intro hic hh hne
  by_cases hp : jsStartsWith line "+" = true
  · exact ⟨⟨line, none, some st.newLineNumber⟩,
      by rw [parseStep_add st hh hic hne hp], rfl⟩
  · by_cases hm : jsStartsWith line "-" = true
    · exact ⟨⟨line, some st.oldLineNumber, none⟩,
        by rw [parseStep_del st hh hic hne (Bool.eq_false_iff.mpr hp) hm], rfl⟩
    · exact ⟨⟨line, some st.oldLineNumber, some st.newLineNumber⟩,
        by rw [parseStep_ctx st hh hic hne (Bool.eq_false_iff.mpr hp)
          (Bool.eq_false_iff.mpr hm)], rfl⟩

/-- Counterexample to C6 as stated: in
`"@@ -1,3 +1,3 @@\n a\n\n b"` the empty third line lies inside hunk
content, yet the parser emits only two `DiffLine`s (none of them empty),
so not every in-content input line produces a `DiffLine`. -/
theorem parse_empty_lines_cex :
    parseDiffWithLineNumbers "@@ -1,3 +1,3 @@\n a\n\n b" =
      [⟨" a", some 1, some 1⟩, ⟨" b", some 2, some 2⟩] ∧
    (¬ ∃ dl ∈ parseDiffWithLineNumbers "@@ -1,3 +1,3 @@\n a\n\n b",
      dl.content = "") ∧
    (splitLines "@@ -1,3 +1,3 @@\n a\n\n b").length = 4 := by decide

/-- Witness for C6 at a concrete state and line. -/
theorem parse_empty_lines_witness :
    parseStep ⟨4, 9, true, []⟩ "" = ⟨4, 9, true, []⟩ ∧
    (parseStep ⟨4, 9, true, []⟩ " ctx").diffLines =
      [⟨" ctx", some 4, some 9⟩] := by
  have h := parse_empty_lines ⟨4, 9, true, []⟩ " ctx"
  obtain ⟨dl, hdl, hc⟩ := h.2.1 rfl (by decide) (by decide)
  refine ⟨h.1, ?_⟩
  rw [hdl]
  have : dl = ⟨" ctx", some 4, some 9⟩ := by
    have h2 := parse_empty_lines ⟨4, 9, true, []⟩ " ctx"
    rw [parseStep_ctx ⟨4, 9, true, []⟩ (by decide) rfl (by decide) (by decide)
      (by decide)] at hdl
    simpa using hdl.symm
  rw [this]
  rfl

end Pickdiff

namespace Pickdiff

/-! ## Split/join lemmas for `stripDiffHeaders` -/

lemma splitChars_ne_nil (sep : Char) (cs : List Char) :
    splitChars sep cs ≠ [] := by
  cases cs with
  | nil => simp [splitChars]
  | cons c rest =>
    simp only [splitChars]
    cases h : splitChars sep rest with
    | nil => simp
    | cons l ls =>
      by_cases hc : c = sep <;> simp [hc]

lemma not_mem_of_mem_splitChars {sep : Char} {cs l : List Char}
    (h : l ∈ splitChars sep cs) : sep ∉ l := by
  induction cs generalizing l with
  | nil =>
    simp [splitChars] at h
    simp [h]
  | cons c rest ih =>
    cases hrec : splitChars sep rest with
    | nil => exact absurd hrec (splitChars_ne_nil sep rest)
    | cons l' ls =>
      simp only [splitChars, hrec] at h
      by_cases hc : c = sep
      · rw [if_pos hc] at h
        rcases List.mem_cons.mp h with h' | h'
        · simp [h']
        · exact ih (by rw [hrec]; exact h')
      · rw [if_neg hc] at h
        rcases List.mem_cons.mp h with h' | h'
        · subst h'
          intro hmem
          rcases List.mem_cons.mp hmem with h'' | h''
          · exact hc h''.symm
          · exact ih (by rw [hrec]; exact List.mem_cons_self l' ls) h''
        · exact ih (by rw [hrec]; exact List.mem_cons_of_mem l' h')

lemma splitChars_of_not_mem {sep : Char} {l : List Char} (h : sep ∉ l) :
    splitChars sep l = [l] := by
  induction l with
  | nil => simp [splitChars]
  | cons c rest ih =>
    have hc : c ≠ sep := fun he => h (he ▸ List.mem_cons_self c rest)
    have hrest : sep ∉ rest := fun hm => h (List.mem_cons_of_mem c hm)
    simp [splitChars, ih hrest, hc]

lemma splitChars_append_sep {sep : Char} {l : List Char} (cs : List Char)
    (h : sep ∉ l) :
    splitChars sep (l ++ sep :: cs) = l :: splitChars sep cs := by
  induction l with
  | nil =>
    simp only [List.nil_append, splitChars]
    cases hrec : splitChars sep cs with
    | nil => exact absurd hrec (splitChars_ne_nil sep cs)
    | cons l' ls => simp
  | cons c rest ih =>
    have hc : c ≠ sep := fun he => h (he ▸ List.mem_cons_self c rest)
    have hrest : sep ∉ rest := fun hm => h (List.mem_cons_of_mem c hm)
    show splitChars sep (c :: (rest ++ sep :: cs)) = (c :: rest) :: splitChars sep cs
    simp only [splitChars]
    rw [ih hrest]
    simp [hc]

lemma splitChars_joinLinesChars {L : List (List Char)} (hne : L ≠ [])
    (h : ∀ l ∈ L, '\n' ∉ l) :
    splitChars '\n' (joinLinesChars L) = L := by
  induction L with
  | nil => exact absurd rfl hne
  | cons l ls ih =>
    cases ls with
    | nil =>
      simp only [joinLinesChars]
      exact splitChars_of_not_mem (h l (List.mem_cons_self l []))
    | cons l₂ ls₂ =>
      simp only [joinLinesChars]
      rw [splitChars_append_sep _ (h l (List.mem_cons_self l _))]
      rw [ih (by simp) (fun x hx => h x (List.mem_cons_of_mem l hx))]

lemma mem_splitLines_data {s : String} {x : String} (h : x ∈ splitLines s) :
    '\n' ∉ x.data := by
  simp only [splitLines, List.mem_map] at h
  obtain ⟨l, hl, rfl⟩ := h
  exact not_mem_of_mem_splitChars hl

lemma map_mk_data (M : List String) : M.map (String.mk ∘ String.data) = M := by
  induction M with
  | nil => rfl
  | cons x xs ih =>
    simp only [List.map_cons, ih]
    rfl

lemma splitLines_joinLines {M : List String} (hne : M ≠ [])
    (h : ∀ x ∈ M, '\n' ∉ x.data) :
    splitLines (joinLines M) = M := by
  unfold splitLines joinLines
  rw [show (String.mk (joinLinesChars (M.map String.data))).data =
      joinLinesChars (M.map String.data) from rfl]
  rw [splitChars_joinLinesChars (by simpa using hne)
    (by intro l hl; obtain ⟨x, hx, rfl⟩ := List.mem_map.mp hl; exact h x hx)]
  rw [List.map_map]
  exact map_mk_data M

lemma mem_stripLinesGo {b : Bool} {L : List String} {x : String}
    (h : x ∈ stripLinesGo b L) : jsStartsWith x "@@ " = false := by
  induction L generalizing b with
  | nil => simp [stripLinesGo] at h
  | cons line rest ih =>
    simp only [stripLinesGo] at h
    by_cases hh : jsStartsWith line "@@ " = true
    · rw [if_pos hh] at h
      exact ih h
    · rw [if_neg hh] at h
      rw [Bool.not_eq_true] at hh
      cases b with
      | false => simpa [hh] using ih (by simpa [hh] using h)
      | true =>
        simp only [Bool.not_true, if_false] at h
        rcases List.mem_cons.mp (by simpa [hh] using h) with h' | h'
        · subst h'; exact hh
        · exact ih h'

lemma stripLinesGo_eq_nil {L : List String}
    (h : ∀ x ∈ L, jsStartsWith x "@@ " = false) :
    stripLinesGo false L = [] := by
  induction L with
  | nil => rfl
  | cons line rest ih =>
    simp only [stripLinesGo, h line (List.mem_cons_self line rest)]
    simpa using ih (fun x hx => h x (List.mem_cons_of_mem line hx))

lemma stripLinesGo_subset {b : Bool} {L : List String} {x : String}
    (h : x ∈ stripLinesGo b L) : x ∈ L := by
  induction L generalizing b with
  | nil => simp [stripLinesGo] at h
  | cons line rest ih =>
    simp only [stripLinesGo] at h
    by_cases hh : jsStartsWith line "@@ " = true
    · rw [if_pos hh] at h
      exact List.mem_cons_of_mem line (ih h)
    · rw [if_neg hh] at h
      cases b with
      | false =>
        simp only [Bool.not_false, if_true] at h
        exact List.mem_cons_of_mem line (ih h)
      | true =>
        simp only [Bool.not_true, if_false] at h
        rcases List.mem_cons.mp h with h' | h'
        · exact h' ▸ List.mem_cons_self line rest
        · exact List.mem_cons_of_mem line (ih h')

end Pickdiff

namespace Pickdiff

/-- C5 (amended): header-stripping is not idempotent on nonempty output;
instead, a second application of `stripDiffHeaders` always returns the
empty string, because stripped output contains no hunk-header line and the
function discards every line before the first hunk header. -/
theorem stripDiffHeaders_twice (d : String) :
    stripDiffHeaders (stripDiffHeaders d) = "" := by
  unfold stripDiffHeaders
  cases hM : stripLinesGo false (splitLines d) with
  | nil => decide
  | cons m ms =>
    have hne : (m :: ms : List String) ≠ [] := by simp
    have hnl : ∀ x ∈ m :: ms, '\n' ∉ x.data := by
      intro x hx
      have hx' : x ∈ stripLinesGo false (splitLines d) := by rw [hM]; exact hx
      exact mem_splitLines_data (stripLinesGo_subset hx')
    have hhdr : ∀ x ∈ m :: ms, jsStartsWith x "@@ " = false := by
      intro x hx
      have hx' : x ∈ stripLinesGo false (splitLines d) := by rw [hM]; exact hx
      exact mem_stripLinesGo hx' 
    rw [splitLines_joinLines hne hnl, stripLinesGo_eq_nil hhdr]
    rfl

/-- Counterexample to C5 as stated: stripping `"@@ -1 +1 @@\n+a"` yields
`"+a"`, but stripping that already-stripped output yields `""`, not
`"+a"`. -/
theorem stripDiffHeaders_twice_cex :
    stripDiffHeaders "@@ -1 +1 @@\n+a" = "+a" ∧
    stripDiffHeaders (stripDiffHeaders "@@ -1 +1 @@\n+a") = "" ∧
    ("+a" : String) ≠ "" := by decide

end Pickdiff

namespace Pickdiff

/-- C8 (amended): every `DiffLine` the parser produces has at least one of
`oldLineNumber`/`newLineNumber` set — unconditionally; and every line
number that is set is at least 1 *provided* every hunk-header line of the
input matches the pattern with both starting offsets positive.  (Without
that proviso the counters stay at their initial or header-given value of
0 and can be emitted.) -/
theorem parse_line_number_invariants (d : String) :
    (∀ dl ∈ parseDiffWithLineNumbers d,
      dl.oldLineNumber ≠ none ∨ dl.newLineNumber ≠ none) ∧
    ((∀ line ∈ splitLines d, jsStartsWith line "@@ " = true →
        goodHunkHeaderB line = true) →
      ∀ dl ∈ parseDiffWithLineNumbers d,
        (∀ k, dl.oldLineNumber = some k → 1 ≤ k) ∧
        (∀ k, dl.newLineNumber = some k → 1 ≤ k)) := by
  constructor
  · refine parse_foldl_inv
      (fun st => ∀ dl ∈ st.diffLines,
        dl.oldLineNumber ≠ none ∨ dl.newLineNumber ≠ none)
      (splitLines d) ⟨0, 0, false, []⟩ (by simp) ?_
    intro st l _ hQ
    by_cases hh : jsStartsWith l "@@ " = true
    · cases hs : searchHunk l.data with
      | none => rw [parseStep_hunk_none st hh hs]; exact hQ
      | some pr =>
        obtain ⟨o, n⟩ := pr
        rw [parseStep_hunk_some st hh hs]
        exact hQ
    · replace hh := Bool.not_eq_true _ ▸ hh
      by_cases hic : st.inContent = true
      · by_cases hne : l = ""
        · subst hne; rw [parseStep_empty]; exact hQ
        · by_cases hp : jsStartsWith l "+" = true
          · rw [parseStep_add st hh hic hne hp]
            intro dl hdl
            rcases List.mem_append.mp hdl with h' | h'
            · exact hQ dl h'
            · simp only [List.mem_singleton] at h'
              subst h'; simp
          · replace hp := Bool.not_eq_true _ ▸ hp
            by_cases hm : jsStartsWith l "-" = true
            · rw [parseStep_del st hh hic hne hp hm]
              intro dl hdl
              rcases List.mem_append.mp hdl with h' | h'
              · exact hQ dl h'
              · simp only [List.mem_singleton] at h'
                subst h'; simp
            · replace hm := Bool.not_eq_true _ ▸ hm
              rw [parseStep_ctx st hh hic hne hp hm]
              intro dl hdl
              rcases List.mem_append.mp hdl with h' | h'
              · exact hQ dl h'
              · simp only [List.mem_singleton] at h'
                subst h'; simp
      · rw [parseStep_skip st hh (Bool.not_eq_true _ ▸ hic)]
        exact hQ
  · intro hgood
    have h := parse_foldl_inv
      (fun st =>
        (st.inContent = true → 1 ≤ st.oldLineNumber ∧ 1 ≤ st.newLineNumber) ∧
        ∀ dl ∈ st.diffLines,
          (∀ k, dl.oldLineNumber = some k → 1 ≤ k) ∧
          (∀ k, dl.newLineNumber = some k → 1 ≤ k))
      (splitLines d) ⟨0, 0, false, []⟩ ⟨by simp, by simp⟩ ?_
    · exact h.2
    intro st l hl hP
    by_cases hh : jsStartsWith l "@@ " = true
    · cases hs : searchHunk l.data with
      | none =>
        have : goodHunkHeaderB l = true := hgood l hl hh
        rw [goodHunkHeaderB, hs] at this
        exact absurd this (by simp)
      | some pr =>
        obtain ⟨o, n⟩ := pr
        have hg : goodHunkHeaderB l = true := hgood l hl hh
        rw [goodHunkHeaderB, hs] at hg
        have hgp : o ≠ 0 ∧ n ≠ 0 := by simpa using hg
        have ho : 1 ≤ o := Nat.one_le_iff_ne_zero.mpr hgp.1
        have hn : 1 ≤ n := Nat.one_le_iff_ne_zero.mpr hgp.2
        rw [parseStep_hunk_some st hh hs]
        exact ⟨fun _ => ⟨ho, hn⟩, hP.2⟩
    · replace hh := Bool.not_eq_true _ ▸ hh
      by_cases hic : st.inContent = true
      · by_cases hne : l = ""
        · subst hne; rw [parseStep_empty]; exact hP
        · obtain ⟨ho, hn⟩ := hP.1 hic
          by_cases hp : jsStartsWith l "+" = true
          · rw [parseStep_add st hh hic hne hp]
            refine ⟨fun _ => ⟨ho, Nat.le_succ_of_le hn⟩, ?_⟩
            intro dl hdl
            rcases List.mem_append.mp hdl with h' | h'
            · exact hP.2 dl h'
            · simp only [List.mem_singleton] at h'
              subst h'
              exact ⟨by simp, fun k hk => by simp at hk; omega⟩
          · replace hp := Bool.not_eq_true _ ▸ hp
            by_cases hm : jsStartsWith l "-" = true
            · rw [parseStep_del st hh hic hne hp hm]
              refine ⟨fun _ => ⟨Nat.le_succ_of_le ho, hn⟩, ?_⟩
              intro dl hdl
              rcases List.mem_append.mp hdl with h' | h'
              · exact hP.2 dl h'
              · simp only [List.mem_singleton] at h'
                subst h'
                exact ⟨fun k hk => by simp at hk; omega, by simp⟩
            · replace hm := Bool.not_eq_true _ ▸ hm
              rw [parseStep_ctx st hh hic hne hp hm]
              refine ⟨fun _ => ⟨Nat.le_succ_of_le ho, Nat.le_succ_of_le hn⟩, ?_⟩
              intro dl hdl
              rcases List.mem_append.mp hdl with h' | h'
              · exact hP.2 dl h'
              · simp only [List.mem_singleton] at h'
                subst h'
                exact ⟨fun k hk => by simp at hk; omega,
                  fun k hk => by simp at hk; omega⟩
      · rw [parseStep_skip st hh (Bool.not_eq_true _ ▸ hic)]
        exact hP

/-- Counterexample to C8 as stated: the well-formed new-file hunk header
`@@ -0,0 +1,1 @@` sets the old counter to 0, so the deletion line is
emitted with `oldLineNumber = 0`, which is not a 1-based value. -/
theorem parse_line_number_invariants_cex :
    parseDiffWithLineNumbers "@@ -0,0 +1,1 @@\n-x" = [⟨"-x", some 0, none⟩] ∧
    ∃ dl ∈ parseDiffWithLineNumbers "@@ -0,0 +1,1 @@\n-x",
      dl.oldLineNumber = some 0 := by decide

/-- Witness for C8 on a concrete diff whose hunk header has positive
starting offsets. -/
theorem parse_line_number_invariants_witness :
    1 ≤ 1 ∧ parseDiffWithLineNumbers "@@ -1,2 +1,2 @@\n x" =
      [⟨" x", some 1, some 1⟩] := by
  have h := (parse_line_number_invariants "@@ -1,2 +1,2 @@\n x").2 (by decide)
  exact ⟨(h ⟨" x", some 1, some 1⟩ (by decide)).1 1 rfl, by decide⟩

end Pickdiff

namespace Pickdiff

/-! ## Record and loop lemmas for `generateDiffs` -/

lemma lookupRecord_recordSet_self {α : Type} (m : List (String × α))
    (k : String) (v : α) :
    lookupRecord (recordSet m k v) k = some v := by
  induction m with
  | nil => simp [recordSet, lookupRecord]
  | cons p rest ih =>
    obtain ⟨k', v'⟩ := p
    by_cases h : (k' == k) = true
    · simp [recordSet, lookupRecord, h]
    · have hne : (k' == k) = false := by simpa using h
      simp [recordSet, lookupRecord, hne, ih]

lemma lookupRecord_recordSet_ne {α : Type} (m : List (String × α))
    {k k'' : String} (v : α) (h : k'' ≠ k) :
    lookupRecord (recordSet m k v) k'' = lookupRecord m k'' := by
  induction m with
  | nil => simp [recordSet, lookupRecord, beq_iff_eq, Ne.symm h]
  | cons p rest ih =>
    obtain ⟨k', v'⟩ := p
    by_cases h1 : (k' == k) = true
    · have hk : k' = k := beq_iff_eq.mp h1
      simp only [recordSet, h1, if_true]
      subst hk
      simp [lookupRecord, beq_iff_eq, Ne.symm h]
    · have hne : (k' == k) = false := by simpa using h1
      by_cases h2 : (k' == k'') = true
      · simp [recordSet, lookupRecord, hne, h2]
      · have hne2 : (k' == k'') = false := by simpa using h2
        simp [recordSet, lookupRecord, hne, hne2, ih]

lemma mem_keys_recordSet {α : Type} {m : List (String × α)} {k x : String}
    {v : α} (h : x ∈ (recordSet m k v).map Prod.fst) :
    x ∈ m.map Prod.fst ∨ x = k := by
  induction m with
  | nil =>
    right
    simpa [recordSet] using h
  | cons p rest ih =>
    obtain ⟨k', v'⟩ := p
    by_cases h1 : (k' == k) = true
    · rw [show recordSet ((k', v') :: rest) k v = (k', v) :: rest from by
        simp [recordSet, h1]] at h
      rw [List.map_cons, List.mem_cons] at h
      rw [List.map_cons, List.mem_cons]
      rcases h with h | h
      · exact Or.inl (Or.inl h)
      · exact Or.inl (Or.inr h)
    · have hne : (k' == k) = false := by simpa using h1
      rw [show recordSet ((k', v') :: rest) k v = (k', v') :: recordSet rest k v from by
        simp [recordSet, hne]] at h
      rw [List.map_cons, List.mem_cons] at h
      rw [List.map_cons, List.mem_cons]
      rcases h with h | h
      · exact Or.inl (Or.inl h)
      · rcases ih h with h2 | h2
        · exact Or.inl (Or.inr h2)
        · exact Or.inr h2

lemma generateDiffsGo_excluded (g : GitOracle) (c : ℚ) :
    ∀ (L : List String) (ds : List (String × List DiffLine))
      (ex : List String) (ds' : List (String × List DiffLine))
      (ex' : List String),
      generateDiffsGo g c L ds ex = .ok (ds', ex') →
      ex' = ex ++ L.filter (fun x => !g.existsAtEnd x)
  | [], ds, ex, ds', ex', h => by
    simp [generateDiffsGo] at h
    simp [← h.2]
  | f :: rest, ds, ex, ds', ex', h => by
    simp only [generateDiffsGo] at h
    by_cases hf : g.existsAtEnd f = true
    · rw [if_pos hf] at h
      cases hp : processFileDiff g c f with
      | error e => rw [hp] at h; simp at h
      | ok v =>
        rw [hp] at h
        rw [generateDiffsGo_excluded g c rest _ _ _ _ h]
        simp [List.filter_cons, hf]
    · rw [if_neg hf] at h
      rw [generateDiffsGo_excluded g c rest _ _ _ _ h]
      have hf' : g.existsAtEnd f = false := Bool.not_eq_true _ ▸ hf
      simp [List.filter_cons, hf']

lemma generateDiffsGo_keys (g : GitOracle) (c : ℚ) (f : String)
    (hf : g.existsAtEnd f = false) :
    ∀ (L : List String) (ds : List (String × List DiffLine))
      (ex : List String) (ds' : List (String × List DiffLine))
      (ex' : List String),
      generateDiffsGo g c L ds ex = .ok (ds', ex') →
      f ∉ ds.map Prod.fst → f ∉ ds'.map Prod.fst
  | [], ds, ex, ds', ex', h, hnot => by
    simp [generateDiffsGo] at h
    rw [← h.1]
    exact hnot
  | x :: rest, ds, ex, ds', ex', h, hnot => by
    simp only [generateDiffsGo] at h
    by_cases hx : g.existsAtEnd x = true
    · rw [if_pos hx] at h
      cases hp : processFileDiff g c x with
      | error e => rw [hp] at h; simp at h
      | ok w =>
        rw [hp] at h
        refine generateDiffsGo_keys g c f hf rest _ _ _ _ h ?_
        intro hmem
        rcases mem_keys_recordSet hmem with h' | h'
        · exact hnot h'
        · rw [h'] at hf
          rw [hf] at hx
          exact absurd hx (by simp)
    · rw [if_neg hx] at h
      exact generateDiffsGo_keys g c f hf rest _ _ _ _ h hnot

lemma generateDiffsGo_lookup (g : GitOracle) (c : ℚ) (f : String)
    (v : List DiffLine) (hf : g.existsAtEnd f = true)
    (hv : processFileDiff g c f = .ok v) :
    ∀ (L : List String) (ds : List (String × List DiffLine))
      (ex : List String) (ds' : List (String × List DiffLine))
      (ex' : List String),
      generateDiffsGo g c L ds ex = .ok (ds', ex') →
      (f ∈ L ∨ lookupRecord ds f = some v) →
      lookupRecord ds' f = some v
  | [], ds, ex, ds', ex', h, hmem => by
    simp [generateDiffsGo] at h
    rcases hmem with h' | h'
    · exact absurd h' (List.not_mem_nil f)
    · rw [← h.1]
      exact h'
  | x :: rest, ds, ex, ds', ex', h, hmem => by
    simp only [generateDiffsGo] at h
    by_cases hx : g.existsAtEnd x = true
    · rw [if_pos hx] at h
      cases hp : processFileDiff g c x with
      | error e => rw [hp] at h; simp at h
      | ok w =>
        rw [hp] at h
        refine generateDiffsGo_lookup g c f v hf hv rest _ _ _ _ h ?_
        by_cases hxf : x = f
        · subst hxf
          right
          have hwv : w = v := by
            rw [hp] at hv
            injection hv
          subst hwv
          exact lookupRecord_recordSet_self ds x w
        · rcases hmem with h' | h'
          · rcases List.mem_cons.mp h' with h'' | h''
            · exact absurd h''.symm hxf
            · exact Or.inl h''
          · right
            rw [lookupRecord_recordSet_ne ds w (Ne.symm hxf)]
            exact h'
    · rw [if_neg hx] at h
      refine generateDiffsGo_lookup g c f v hf hv rest _ _ _ _ h ?_
      rcases hmem with h' | h'
      · rcases List.mem_cons.mp h' with h'' | h''
        · rw [h''] at hf
          rw [hf] at hx
          exact absurd rfl hx
        · exact Or.inl h''
      · exact Or.inr h'

lemma processFileDiff_congr (g g' : GitOracle) (c : ℚ) (x : String)
    (hd : ∀ q, g'.diff q x = g.diff q x)
    (hs : g'.existsAtStart x = g.existsAtStart x)
    (hw : g'.showFile x = g.showFile x) :
    processFileDiff g' c x = processFileDiff g c x := by
  unfold processFileDiff
  rw [hd, hs, hw]

lemma generateDiffsGo_congr (g g' : GitOracle) (c : ℚ)
    (hA : ∀ x, g'.existsAtEnd x = g.existsAtEnd x)
    (hB : ∀ x, g.existsAtEnd x = true →
      (∀ q, g'.diff q x = g.diff q x) ∧
        g'.existsAtStart x = g.existsAtStart x ∧
        g'.showFile x = g.showFile x) :
    ∀ (L : List String) (ds : List (String × List DiffLine))
      (ex : List String),
      generateDiffsGo g' c L ds ex = generateDiffsGo g c L ds ex
  | [], ds, ex => rfl
  | x :: rest, ds, ex => by
    by_cases hx : g.existsAtEnd x = true
    · simp only [generateDiffsGo, hA x, if_pos hx]
      rw [processFileDiff_congr g g' c x (hB x hx).1 (hB x hx).2.1 (hB x hx).2.2]
      cases processFileDiff g c x with
      | error e => rfl
      | ok w => exact generateDiffsGo_congr g g' c hA hB rest _ _
    · simp only [generateDiffsGo, hA x, if_neg hx]
      exact generateDiffsGo_congr g g' c hA hB rest _ _

lemma parse_no_hunk {r : String}
    (h : ∀ line ∈ splitLines r, jsStartsWith line "@@ " = false) :
    parseDiffWithLineNumbers r = [] := by
  have hinv := parse_foldl_inv (fun st => st = ⟨0, 0, false, []⟩)
    (splitLines r) ⟨0, 0, false, []⟩ rfl ?_
  · unfold parseDiffWithLineNumbers
    rw [hinv]
  · intro st l hl hst
    subst hst
    exact parseStep_skip _ (h l hl) rfl

lemma newFileDiffLinesGo_length (j : Nat) (lines : List String) :
    (newFileDiffLinesGo j lines).length = lines.length := by
  induction lines generalizing j with
  | nil => rfl
  | cons l rest ih => simp [newFileDiffLinesGo, ih]

lemma newFileDiffLinesGo_get (j : Nat) (lines : List String) :
    ∀ (i : Nat) (l : String), lines[i]? = some l →
      (newFileDiffLinesGo j lines)[i]? =
        some (⟨"+" ++ l, none, some (j + i + 1)⟩ : DiffLine) := by
  induction lines generalizing j with
  | nil => intro i l h; simp at h
  | cons x rest ih =>
    intro i l h
    cases i with
    | zero =>
      simp at h
      subst h
      simp [newFileDiffLinesGo]
    | succ i' =>
      simp only [List.getElem?_cons_succ] at h
      have := ih (j + 1) i' l h
      simp only [newFileDiffLinesGo, List.getElem?_cons_succ]
      rw [this]
      have harith : j + 1 + i' + 1 = j + (i' + 1) + 1 := by omega
      rw [harith]

end Pickdiff

namespace Pickdiff

/-- C2: a requested file whose end-commit existence check fails is silently
excluded — on success `excludedFiles` is exactly the requested files
failing the check, in request order, the file is never a key of `diffs`,
and the whole computation is insensitive to what `git diff` / `git show` /
the start-commit check would do on any file failing the end check (so no
diff is attempted for it and its absence never surfaces as an error). -/
theorem generateDiffs_excludes (g : GitOracle) (files : List String)
    (ctx : JSVal) (f : String) (hf : g.existsAtEnd f = false) :
    (∀ ds ex, generateDiffs g files ctx = .ok (ds, ex) →
      ex = files.filter (fun x => !g.existsAtEnd x) ∧ (f ∈ files → f ∈ ex) ∧
        f ∉ ds.map Prod.fst) ∧
    (∀ g' : GitOracle, (∀ x, g'.existsAtEnd x = g.existsAtEnd x) →
      (∀ x, g.existsAtEnd x = true →
        (∀ q, g'.diff q x = g.diff q x) ∧
          g'.existsAtStart x = g.existsAtStart x ∧
          g'.showFile x = g.showFile x) →
      generateDiffs g' files ctx = generateDiffs g files ctx) := by
  constructor
  · intro ds ex h
    have hex : ex = files.filter (fun x => !g.existsAtEnd x) := by
      have := generateDiffsGo_excluded g (validateContextLines ctx) files [] [] ds ex h
      simpa using this
    refine ⟨hex, ?_, ?_⟩
    · intro hmem
      rw [hex]
      exact List.mem_filter.mpr ⟨hmem, by simp [hf]⟩
    · exact generateDiffsGo_keys g (validateContextLines ctx) f hf files [] [] ds ex h
        (by simp)
  · intro g' hA hB
    unfold generateDiffs
    exact generateDiffsGo_congr g g' (validateContextLines ctx) hA hB files [] []

/-- Witness for C2: with `gone.ts` absent at the end commit, the request
for `["a.ts", "gone.ts"]` excludes exactly `gone.ts` and does not key it
in the diffs. -/
theorem generateDiffs_excludes_witness :
    (["a.ts", "gone.ts"].filter fun x =>
      !((⟨fun s => s == "a.ts", fun _ _ => .ok "", fun _ => true,
          fun _ => .ok ""⟩ : GitOracle).existsAtEnd x)) = ["gone.ts"] ∧
    "gone.ts" ∉
      ([("a.ts", ([⟨"NO_CHANGES", none, none⟩] : List DiffLine))].map Prod.fst) := by
  have h := (generateDiffs_excludes
      ⟨fun s => s == "a.ts", fun _ _ => .ok "", fun _ => true, fun _ => .ok ""⟩
      ["a.ts", "gone.ts"] (.num 3) "gone.ts" rfl).1
      [("a.ts", [⟨"NO_CHANGES", none, none⟩])] ["gone.ts"] rfl
  exact ⟨h.1.symm, h.2.2⟩

/-- C3: a file that exists at both commits and whose raw diff text is empty
gets exactly the single sentinel line `{content := "NO_CHANGES"}`, with
neither line number set, as its whole sequence. -/
theorem generateDiffs_noChanges (g : GitOracle) (ctx : JSVal)
    (files : List String) (f : String)
    (h1 : g.existsAtEnd f = true)
    (h2 : g.diff (validateContextLines ctx) f = .ok "")
    (h3 : g.existsAtStart f = true)
    (hmem : f ∈ files) :
    ∀ ds ex, generateDiffs g files ctx = .ok (ds, ex) →
      lookupRecord ds f = some [⟨"NO_CHANGES", none, none⟩] := by
  intro ds ex h
  refine generateDiffsGo_lookup g (validateContextLines ctx) f
    [⟨"NO_CHANGES", none, none⟩] h1 ?_ files [] [] ds ex h (Or.inl hmem)
  simp [processFileDiff, h2, h3]

/-- Witness for C3 on a one-file request against an unchanged file. -/
theorem generateDiffs_noChanges_witness :
    lookupRecord [("a.ts", ([⟨"NO_CHANGES", none, none⟩] : List DiffLine))] "a.ts" =
      some [⟨"NO_CHANGES", none, none⟩] :=
  generateDiffs_noChanges
    ⟨fun _ => true, fun _ _ => .ok "", fun _ => true, fun _ => .ok ""⟩
    (.num 3) ["a.ts"] "a.ts" rfl rfl rfl (List.mem_cons_self "a.ts" [])
    [("a.ts", [⟨"NO_CHANGES", none, none⟩])] [] rfl

/-- C4: a new file (absent at the start commit, present at the end commit)
whose full end-commit content splits into N lines gets exactly N
`DiffLine`s — each content `+`-prefixed, `newLineNumber` running 1..N in
order and `oldLineNumber` never set. -/
theorem generateDiffs_newFile (g : GitOracle) (ctx : JSVal)
    (files : List String) (f content : String)
    (h1 : g.existsAtEnd f = true)
    (h2 : g.diff (validateContextLines ctx) f = .ok "")
    (h3 : g.existsAtStart f = false)
    (h4 : g.showFile f = .ok content)
    (hmem : f ∈ files) :
    (∀ ds ex, generateDiffs g files ctx = .ok (ds, ex) →
      lookupRecord ds f = some (newFileDiffLines content)) ∧
    (newFileDiffLines content).length = (splitLines content).length ∧
    (∀ (i : Nat) (l : String), (splitLines content)[i]? = some l →
      (newFileDiffLines content)[i]? =
        some (⟨"+" ++ l, none, some (i + 1)⟩ : DiffLine)) := by
  refine ⟨?_, newFileDiffLinesGo_length 0 (splitLines content), ?_⟩
  · intro ds ex h
    refine generateDiffsGo_lookup g (validateContextLines ctx) f
      (newFileDiffLines content) h1 ?_ files [] [] ds ex h (Or.inl hmem)
    simp [processFileDiff, h2, h3, h4, newFileDiffLines]
  · intro i l hl
    have := newFileDiffLinesGo_get 0 (splitLines content) i l hl
    simpa using this

/-- Witness for C4 with a two-line new file. -/
theorem generateDiffs_newFile_witness :
    lookupRecord [("n.ts", newFileDiffLines "l1\nl2")] "n.ts" =
      some (newFileDiffLines "l1\nl2") ∧
    newFileDiffLines "l1\nl2" =
      [⟨"+l1", none, some 1⟩, ⟨"+l2", none, some 2⟩] := by
  have h := generateDiffs_newFile
    ⟨fun _ => true, fun _ _ => .ok "", fun _ => false, fun _ => .ok "l1\nl2"⟩
    (.num 3) ["n.ts"] "n.ts" "l1\nl2" rfl rfl rfl rfl
    (List.mem_cons_self "n.ts" [])
  exact ⟨h.1 [("n.ts", newFileDiffLines "l1\nl2")] [] rfl, by decide⟩

/-- C10: a file that passes the end-commit check and whose raw diff is
non-empty but contains no hunk-header line is stored with an *empty* line
sequence — neither the `NO_CHANGES` sentinel nor an exclusion. -/
theorem generateDiffs_headerOnlyDiff (g : GitOracle) (ctx : JSVal)
    (files : List String) (f r : String)
    (h1 : g.existsAtEnd f = true)
    (h2 : g.diff (validateContextLines ctx) f = .ok r)
    (hr : r ≠ "")
    (hnohunk : ∀ line ∈ splitLines r, jsStartsWith line "@@ " = false)
    (hmem : f ∈ files) :
    ∀ ds ex, generateDiffs g files ctx = .ok (ds, ex) →
      lookupRecord ds f = some [] ∧ f ∉ ex := by
  intro ds ex h
  constructor
  · refine generateDiffsGo_lookup g (validateContextLines ctx) f [] h1 ?_
      files [] [] ds ex h (Or.inl hmem)
    simp only [processFileDiff, h2]
    rw [if_neg hr, parse_no_hunk hnohunk]
  · have hex := generateDiffsGo_excluded g (validateContextLines ctx)
      files [] [] ds ex h
    rw [hex]
    simp only [List.nil_append]
    intro hmem'
    have := List.of_mem_filter hmem'
    rw [h1] at this
    simp at this

/-- Witness for C10: a mode-change-only diff (headers, no hunks) yields an
empty sequence under the file's key and no exclusion. -/
theorem generateDiffs_headerOnlyDiff_witness :
    lookupRecord [("m.ts", ([] : List DiffLine))] "m.ts" = some [] ∧
    "m.ts" ∉ ([] : List String) := by
  have h := generateDiffs_headerOnlyDiff
    ⟨fun _ => true,
     fun _ _ => .ok "diff --git a/m.ts b/m.ts\nold mode 100644\nnew mode 100755",
     fun _ => true, fun _ => .ok ""⟩
    (.num 3) ["m.ts"] "m.ts"
    "diff --git a/m.ts b/m.ts\nold mode 100644\nnew mode 100755"
    rfl rfl (by decide) (by decide) (List.mem_cons_self "m.ts" [])
    [("m.ts", [])] [] rfl
  exact h

end Pickdiff

namespace Pickdiff

/-! ## `contextLines` lemmas -/

lemma validateContextLines_idem (v : JSVal) :
    validateContextLines (.num (validateContextLines v)) = validateContextLines v := by
  have h3 : validateContextLines (.num 3) = 3 := by decide
  cases v with
  | num q =>
    by_cases h : q.den = 1 ∧ 0 < q ∧ q ≤ 999999
    · simp [validateContextLines, h]
    · rw [show validateContextLines (.num q) = 3 from by simp [validateContextLines, h]]
      exact h3
  | str s => exact h3
  | boolean b => exact h3
  | nullVal => exact h3

/-- C7 (amended): in the diff module, `validateContextLines` passes a
positive integer number at most 999999 through unchanged and replaces
every other value (non-number, non-integer, non-positive or greater than
999999) with the default 3 — and normalizing again changes nothing, so
`generateDiffs` consults `git diff` with the validated value.  The server's
inline check (`server.ts`) agrees on valid values and on non-numbers and
non-positives, but only requires a positive number: positive values greater
than 999999 (or non-integer positive values) are passed through to the
diff call unchanged there. -/
theorem contextLines_validation (v : JSVal) :
    (∀ q : ℚ, v = .num q → q.den = 1 → 0 < q → q ≤ 999999 →
      validateContextLines v = q ∧ serverValidContextLines v = q) ∧
    ((∀ q : ℚ, v = .num q → ¬(q.den = 1 ∧ 0 < q ∧ q ≤ 999999)) →
      validateContextLines v = 3) ∧
    (∀ q : ℚ, v = .num q → 999999 < q → serverValidContextLines v = q) ∧
    (∀ (g : GitOracle) (files : List String),
      generateDiffs g files (.num (validateContextLines v)) =
        generateDiffs g files v) := by
  refine ⟨?_, ?_, ?_, ?_⟩
  · intro q hq h1 h2 h3
    subst hq
    exact ⟨by simp [validateContextLines, h1, h2, h3],
      by simp [serverValidContextLines, h2]⟩
  · intro hq
    cases v with
    | num q => simp [validateContextLines, hq q rfl]
    | str s => rfl
    | boolean b => rfl
    | nullVal => rfl
  · intro q hq hgt
    subst hq
    have hpos : (0 : ℚ) < q := lt_trans (by norm_num) hgt
    simp [serverValidContextLines, hpos]
  · intro g files
    unfold generateDiffs
    rw [validateContextLines_idem]

/-- Counterexample to C7 as stated: `contextLines = 1000000` exceeds
999999, yet the server's inline check passes it through unchanged to the
diff call instead of replacing it with 3. -/
theorem contextLines_validation_cex :
    serverValidContextLines (.num 1000000) = 1000000 ∧
    validateContextLines (.num 1000000) = 3 ∧
    (1000000 : ℚ) ≠ 3 := by decide

/-- Witness for C7 at the spec's scenario values. -/
theorem contextLines_validation_witness :
    validateContextLines (.num (-5)) = 3 ∧
    validateContextLines (.str "invalid") = 3 ∧
    validateContextLines (.num 7) = 7 ∧
    serverValidContextLines (.num 1000000) = 1000000 := by
  have ha := (contextLines_validation (.num (-5))).2.1
  have hb := (contextLines_validation (.str "invalid")).2.1
  have hc := (contextLines_validation (.num 7)).1 7 rfl (by decide) (by decide)
    (by decide)
  have hd := (contextLines_validation (.num 1000000)).2.2.1 1000000 rfl
    (by norm_num)
  refine ⟨ha ?_, hb ?_, hc.1, hd⟩
  · intro q hq
    injection hq with h
    subst h
    decide
  · intro q hq
    simp at hq

end Pickdiff

namespace Pickdiff

/-! ## Markdown fence lemmas -/

lemma containsBlock_append_left (zs xs ys : List String)
    (h : containsBlock xs ys) : containsBlock (zs ++ xs) ys := by
  obtain ⟨p, q, hpq⟩ := h
  exact ⟨zs ++ p, q, by simp [hpq]⟩

lemma flatten_contains {α : Type} (g : α → List String) :
    ∀ (l : List α) (a : α), a ∈ l →
      ∃ p q, (l.map g).flatten = p ++ g a ++ q := by
  intro l
  induction l with
  | nil => intro a ha; simp at ha
  | cons x rest ih =>
    intro a ha
    rcases List.mem_cons.mp ha with h | h
    · subst h
      exact ⟨[], (rest.map g).flatten, by simp⟩
    · obtain ⟨p, q, hpq⟩ := ih a h
      exact ⟨g x ++ p, q, by simp [hpq]⟩

/-- C9 (amended): for a file with actual changes, the CLI Markdown renderer
(`diff.ts`) emits its lines verbatim inside a fenced block always opened
with the generic ` ```diff ` fence, while the frontend Markdown renderer
(`frontend/script.ts`) opens the fence with the language looked up from the
file's extension via `getMarkdownLanguage` (which itself falls back to
`diff` for unknown or missing extensions). -/
theorem markdown_fences (data : MarkdownExportData) (repoPath file : String)
    (L : List DiffLine) (hmem : (file, L) ∈ data.diffs)
    (hnc : isNoChanges L = false) :
    containsBlock (generateMarkdownLines data)
      (["```diff"] ++ L.map (fun dl => dl.content) ++ ["```"]) ∧
    containsBlock (frontendGenerateMarkdownLines repoPath data)
      (["```" ++ getMarkdownLanguage file] ++
        L.map (fun dl => dl.content) ++ ["```"]) := by
  constructor
  · obtain ⟨p, q, hpq⟩ := flatten_contains
      (fun pr : String × List DiffLine => mdFileChunk pr.1 pr.2)
      data.diffs (file, L) hmem
    have hchunk : mdFileChunk file L =
        ["### `" ++ file ++ "`", ""] ++
          (["```diff"] ++ L.map (fun dl => dl.content) ++ ["```"]) ++ [""] := by
      simp [mdFileChunk, hnc]
    unfold generateMarkdownLines
    refine containsBlock_append_left _ _ _ ?_
    exact ⟨p ++ ["### `" ++ file ++ "`", ""], [""] ++ q, by
      rw [hpq, hchunk]
      simp⟩
  · obtain ⟨p, q, hpq⟩ := flatten_contains
      (fun pr : String × List DiffLine => frontendMdFileChunk pr.1 pr.2)
      data.diffs (file, L) hmem
    have hchunk : frontendMdFileChunk file L =
        ["### " ++ file, ""] ++
          (["```" ++ getMarkdownLanguage file] ++
            L.map (fun dl => dl.content) ++ ["```"]) ++ [""] := by
      simp [frontendMdFileChunk, hnc]
    unfold frontendGenerateMarkdownLines
    refine containsBlock_append_left _ _ _ ?_
    exact ⟨p ++ ["### " ++ file, ""], [""] ++ q, by
      rw [hpq, hchunk]
      simp⟩

/-- Counterexample to C9 as stated: for `a.ts` the frontend Markdown
renderer opens the fence with `typescript`, not with the generic `diff`
language. -/
theorem markdown_fences_cex :
    "```typescript" ∈
      frontendGenerateMarkdownLines "/repo"
        ⟨"/repo", "abc", "def", 3, [("a.ts", [⟨"+x", none, some 1⟩])], []⟩ ∧
    "```diff" ∉
      frontendGenerateMarkdownLines "/repo"
        ⟨"/repo", "abc", "def", 3, [("a.ts", [⟨"+x", none, some 1⟩])], []⟩ := by
  decide

/-- Witness for C9 on a one-file export. -/
theorem markdown_fences_witness :
    containsBlock
      (generateMarkdownLines
        ⟨"/repo", "abc", "def", 3, [("a.ts", [⟨"+x", none, some 1⟩])], []⟩)
      (["```diff"] ++
        ([⟨"+x", none, some 1⟩] : List DiffLine).map (fun dl => dl.content) ++
        ["```"]) ∧
    containsBlock
      (frontendGenerateMarkdownLines "/repo"
        ⟨"/repo", "abc", "def", 3, [("a.ts", [⟨"+x", none, some 1⟩])], []⟩)
      (["```" ++ getMarkdownLanguage "a.ts"] ++
        ([⟨"+x", none, some 1⟩] : List DiffLine).map (fun dl => dl.content) ++
        ["```"]) :=
  markdown_fences
    ⟨"/repo", "abc", "def", 3, [("a.ts", [⟨"+x", none, some 1⟩])], []⟩
    "/repo" "a.ts" [⟨"+x", none, some 1⟩] (by decide) (by decide)

end Pickdiff
